import Mathlib

/-!
Shallow embedding of `src/strategy.py` (a single-asset backtesting engine):
the smoothing step `StrategyExecutor._smoothData`, the executor loop
`StrategyExecutor.backtest`, and the reference strategy `LinRegStrategy.tick`.

Python floats are modelled as exact rationals (`ℚ`); numpy operations
(`np.diff`, `np.linspace`, `np.interp`, `scipy.integrate.cumtrapz`,
least-squares `polyfit`, `np.std`) are translated to explicit rational
computations.  A Python exception (numpy `ValueError` on empty sample
points, `IndexError`, `NameError`) is modelled as `Option`/`Except`
failure or an explicit error branch; the code under test defines no error
classes of its own.  `np.std`'s square root is an uninterpreted parameter
`sqrtQ : ℚ → ℚ`, since no property proved here depends on its values.
-/

set_option allowUnsafeReducibility true
attribute [semireducible] Rat.add Rat.mul Rat.inv Rat.sub
set_option maxRecDepth 8000

deriving instance DecidableEq for Except

/-- Trade motions a strategy can emit; `NONE` is the absence of a value
(`Option.none`), as in the Python `Optional[StrategyMotion]`. -/
inductive StrategyMotion
  | OPEN
  | CLOSE
deriving DecidableEq

/-- Embedding of `np.diff`: first differences `c[i+1] - c[i]`. -/
def diffL (c : List ℚ) : List ℚ :=
  List.zipWith (fun a b => b - a) c c.tail

/-- Embedding of `np.linspace(0, stop, num)`: `num` uniformly spaced points
from `0` to `stop`.  For `num ≤ 1` numpy returns `[]` or `[0.0]`. -/
def linspace (stop : ℚ) (num : ℕ) : List ℚ :=
  if num ≤ 1 then List.replicate num 0
  else (List.range num).map fun (k : ℕ) => stop * (k : ℚ) / ((num : ℚ) - 1)

/-- Embedding of `np.interp(t, xp, fp)` where `xp = [0, 1, ..., fp.length-1]`
(the `np.indices` grid the code uses): piecewise-linear interpolation,
clamped to the end values outside the sample range. -/
def interpAt (fp : List ℚ) (t : ℚ) : ℚ :=
  if t ≤ 0 then fp.headD 0
  else if ((fp.length : ℚ) - 1) ≤ t then fp.getLastD 0
  else
    let j := (Rat.floor t).toNat
    fp.getD j 0 + (t - (j : ℚ)) * (fp.getD (j + 1) 0 - fp.getD j 0)

/-- Trapezoid increments `(y[k] + y[k+1]) / 2 * (x[k+1] - x[k])` over the
zipped point list, one per consecutive pair. -/
def trapzIncs : List (ℚ × ℚ) → List ℚ
  | (a, c) :: (b, d) :: rest => (a + b) / 2 * (d - c) :: trapzIncs ((b, d) :: rest)
  | _ => []

/-- Cumulative sums of a list (the running totals, without the leading 0).
The accumulator is destructured to keep each partial sum in normal form. -/
def partialSums : ℚ → List ℚ → List ℚ
  | _, [] => []
  | acc, a :: rest =>
    match acc + a with
    | ⟨n, d, h1, h2⟩ => ⟨n, d, h1, h2⟩ :: partialSums ⟨n, d, h1, h2⟩ rest

/-- Embedding of `scipy.integrate.cumtrapz(y, x)`: cumulative trapezoidal
integral, one value per consecutive pair of points. -/
def cumtrapz (y x : List ℚ) : List ℚ :=
  partialSums 0 (trapzIncs (y.zip x))

/-- Embedding of `StrategyExecutor._smoothData`.  Returns `none` where the
Python raises (np.interp on an empty sample array, i.e. fewer than 2
closings); otherwise the pair `(x_smooth, y_smooth)`. -/
def smoothData (closings : List ℚ) : Option (List ℚ × List ℚ) :=
  let count := closings.length
  let d := diffL closings
  if d.isEmpty then none
  else
    let grid := linspace ((d.length : ℚ)) (count * 4)
    let dInt := grid.map (interpAt d)
    let yS := (cumtrapz dInt grid).map (fun v => v + closings.headD 0)
    some (grid.tail.map (fun v => v + 1 / 2), yS)

/-- The `x_smooth` accessor view of the smoothed data (`[]` when smoothing
fails). -/
def smoothedX (c : List ℚ) : List ℚ := ((smoothData c).getD ([], [])).1

/-- The `y_smooth` accessor view of the smoothed data (`[]` when smoothing
fails). -/
def smoothedY (c : List ℚ) : List ℚ := ((smoothData c).getD ([], [])).2

/-- Portfolio-plus-ledger state mutated inside the `backtest` loop:
`_usd`, `_token` and the transaction list `(time, price, isOpen)`. -/
structure PortSt where
  usd : ℚ
  token : ℚ
  txs : List (ℚ × ℚ × Bool)
deriving DecidableEq

/-- Executor instance state: the fields set by `StrategyExecutor.__init__`
and mutated by `backtest` (`_usd`, `_token`, registered strategies,
`_transactions`, `_x_smooth`, `_y_smooth`).  Strategy instances are the
states `σ` they carry; a strategy class is a tick function over `σ`. -/
structure ExecState (σ : Type) where
  usd : ℚ
  token : ℚ
  strats : List σ
  transactions : List (ℚ × ℚ × Bool)
  xS : List ℚ
  yS : List ℚ
deriving DecidableEq

/-- The state of a fresh `StrategyExecutor()` with strategy instances `ss`
registered via `addStrategy`: `_usd = 0`, `_token = 0`, empty ledger and
empty smoothed series. -/
def freshExec {σ : Type} (ss : List σ) : ExecState σ :=
  ⟨0, 0, ss, [], [], []⟩

/-- A strategy class: `tick(open, times, prices)` returning an optional
motion and the instance's updated private state, or a raised exception. -/
def TickFn (σ : Type) : Type :=
  σ → Bool → List ℚ → List ℚ → Except Unit (Option StrategyMotion × σ)

/-- The rolling window `l[index-100 : index]` handed to strategies. -/
def windowAt (l : List ℚ) (index : ℕ) : List ℚ :=
  (l.drop (index - 100)).take 100

/-- One strategy evaluation inside the loop body: tick the strategy with
`holding = token > 0` and the current windows, then apply the OPEN/CLOSE
portfolio update and ledger append exactly as the Python branches do.
The trade price is the window's last element `y[-1]`; the recorded
transaction uses `x_smooth[index]` and `y_smooth[index]`. -/
def stratStep {σ : Type} (tick : TickFn σ) (fee : ℚ) (xS yS : List ℚ)
    (index : ℕ) (s : σ) (port : PortSt) : Except Unit (σ × PortSt) :=
  let x := windowAt xS index
  let y := windowAt yS index
  match tick s (decide (0 < port.token)) x y with
  | .error e => .error e
  | .ok (motion, s') =>
    match motion with
    | some .OPEN =>
      if 0 < port.usd then
        match y.getLast? with
        | none => .error ()
        | some yl =>
          .ok (s', ⟨0, port.usd / yl * (1 - fee),
            port.txs ++ [(xS.getD index 0, yS.getD index 0, true)]⟩)
      else .ok (s', port)
    | some .CLOSE =>
      if 0 < port.token then
        match y.getLast? with
        | none => .error ()
        | some yl =>
          .ok (s', ⟨port.token * yl * (1 - fee), 0,
            port.txs ++ [(xS.getD index 0, yS.getD index 0, false)]⟩)
      else .ok (s', port)
    | none => .ok (s', port)

/-- The inner `for strategy in self._strategies` loop at one index.  The
first component is false when a tick raised; earlier strategies keep
their already-updated states, as the Python objects would. -/
def stratsStep {σ : Type} (tick : TickFn σ) (fee : ℚ) (xS yS : List ℚ)
    (index : ℕ) : List σ → PortSt → Bool × List σ × PortSt
  | [], port => (true, [], port)
  | s :: rest, port =>
    match stratStep tick fee xS yS index s port with
    | .error _ => (false, s :: rest, port)
    | .ok (s', port') =>
      match stratsStep tick fee xS yS index rest port' with
      | (ok, rest', port'') => (ok, s' :: rest', port'')

/-- The outer `for index in range(100, len(x_smooth))` loop, stopping at
the state reached when a strategy raises. -/
def idxLoop {σ : Type} (tick : TickFn σ) (fee : ℚ) (xS yS : List ℚ) :
    List ℕ → List σ → PortSt → Bool × List σ × PortSt
  | [], ss, port => (true, ss, port)
  | i :: rest, ss, port =>
    match stratsStep tick fee xS yS i ss port with
    | (false, ss', port') => (false, ss', port')
    | (true, ss', port') => idxLoop tick fee xS yS rest ss' port'

/-- Embedding of `StrategyExecutor.backtest(fee, closings)`.  Returns the
`(baseline, finalEquity)` pair (or an error where the Python raises) and
the executor state visible to the caller afterwards — also when an
exception escapes, since the Python object keeps its mutated fields.
An empty loop leaves the local `y` unbound, so the final liquidation
line raises `NameError` when the smoothed length is at most 100. -/
def backtest {σ : Type} (tick : TickFn σ) (fee : ℚ) (closings : List ℚ)
    (st : ExecState σ) : Except Unit (ℚ × ℚ) × ExecState σ :=
  match smoothData closings with
  | none => (.error (), { st with usd := 100, token := 0 })
  | some (xS, yS) =>
    let baseline := 100 / yS.headD 0 * yS.getLastD 0 * (1 - fee) ^ 2
    let L := xS.length
    match idxLoop tick fee xS yS (List.range' 100 (L - 100)) st.strats
        ⟨100, 0, st.transactions⟩ with
    | (ok, ss', port') =>
      if ok then
        if 100 < L then
          let yl := (windowAt yS (L - 1)).getLastD 0
          let usdF := port'.usd + port'.token * yl * (1 - fee)
          (.ok (baseline, usdF), ⟨usdF, 0, ss', port'.txs, xS, yS⟩)
        else
          (.error (), ⟨port'.usd, port'.token, ss', port'.txs, xS, yS⟩)
      else
        (.error (), ⟨port'.usd, port'.token, ss', port'.txs, xS, yS⟩)

/-- Stub strategy for Scenario B: state records whether it has ticked
before; it returns OPEN on its very first tick and nothing afterwards. -/
def stubTick : TickFn Bool := fun fired _ _ _ =>
  if fired then .ok (none, true) else .ok (some .OPEN, true)

/-- A tick that never trades and never touches its state. -/
def noneTick : TickFn Unit := fun s _ _ _ => .ok (none, s)

/-- Scenario A data: 50 equally spaced closings from 100 to 200. -/
def closings50 : List ℚ :=
  (List.range 50).map fun (i : ℕ) => 100 + 100 * (i : ℚ) / 49

/-- Strategy for exercising a tick that raises partway through the loop:
it returns OPEN on its first tick and raises on every later tick. -/
def errOpenTick : TickFn ℕ := fun n _ _ _ =>
  if n = 0 then .ok (some .OPEN, 1) else .error ()

/-- A 26-point constant price series (long enough for the 100-point
warm-up: its smoothed length is 103). -/
def onesC26 : List ℚ := List.replicate 26 1

/-- A 26-point series containing a non-positive price. -/
def badC26 : List ℚ := (List.range 26).map fun (i : ℕ) => if i = 10 then -5 else 1

/-- A 10-point series: valid for smoothing (length 39) but shorter than
the 100-point warm-up, so the backtest loop never runs. -/
def tenOnes : List ℚ := List.replicate 10 1

/-- Configuration fields of `LinRegStrategyParams`. -/
structure LinRegParams where
  sellTrendThreshold : ℚ
  buyTrendThreshold : ℚ
  shortTermWindow : ℕ
  longTermWindow : ℕ
  tradeFee : ℚ
  trailingMargin : ℚ
  lossMargin : ℚ
deriving DecidableEq

/-- The default values of `LinRegStrategyParams` (0.002 = 1/500,
0.02 = 1/50, 0.01 = 1/100). -/
def defaultParams : LinRegParams := ⟨2, 2, 10, 80, 1 / 500, 1 / 50, 1 / 100⟩

/-- Embedding of the Python slice `l[:-k]`: drop the last `k` elements.
For `k = 0` the slice `[:-0]` is `[:0]`, the empty list. -/
def pyTrunc {α : Type} (l : List α) (k : ℕ) : List α :=
  if k = 0 then [] else l.take (l.length - k)

/-- Embedding of `np.polynomial.polynomial.polyfit(x, y, 1)` composed with
`_fitLine`'s reordering: the ordinary least-squares slope and intercept.
`polyfit` raises on an empty sample array.  On a degenerate (rank
deficient) input numpy returns a pseudo-inverse solution with a warning
instead of raising; that case is unreachable under the window shapes used
by the claims and is modelled by total rational division (a zero
denominator yields 0). -/
def fitLine (x y : List ℚ) : Except Unit (ℚ × ℚ) :=
  if x.isEmpty then .error ()
  else
    let n : ℚ := x.length
    let sx := x.sum
    let sy := y.sum
    let sxx := (x.map fun a => a * a).sum
    let sxy := (List.zipWith (fun a b => a * b) x y).sum
    let m := (n * sxy - sx * sy) / (n * sxx - sx * sx)
    .ok (m, (sy - m * sx) / n)

/-- The argument of the square root inside `np.std`: the population
variance `Σ (v - mean)² / n`. -/
def popVariance (l : List ℚ) : ℚ :=
  let n : ℚ := l.length
  let mean := l.sum / n
  (l.map fun v => (v - mean) * (v - mean)).sum / n

/-- Embedding of `LinRegStrategy.tick`.  The instance's private state is
`_sellBar`; `sqrtQ` is the uninterpreted square root inside `np.std`.
Mirrors the source order: fit both truncated windows, read the window's
last time and price, run the stop-loss check (returning CLOSE with the
stop unchanged), ratchet the stop upward, then evaluate the two trend
signals. -/
def linRegTick (p : LinRegParams) (sqrtQ : ℚ → ℚ) : TickFn ℚ :=
  fun sellBar holding times prices =>
  match fitLine (pyTrunc times p.shortTermWindow) (pyTrunc prices p.shortTermWindow) with
  | .error e => .error e
  | .ok (mLinShort, _bLinShort) =>
  match fitLine (pyTrunc times p.longTermWindow) (pyTrunc prices p.longTermWindow) with
  | .error e => .error e
  | .ok (mLinLong, bLinLong) =>
  match times.getLast?, prices.getLast? with
  | some tLast, some price =>
    let yFit := mLinLong * tLast + bLinLong
    let stdFit := sqrtQ (popVariance (pyTrunc prices p.longTermWindow))
    if holding = true ∧ price ≤ sellBar then .ok (some .CLOSE, sellBar)
    else
      let sellBar1 := max sellBar ((1 - 2 * p.tradeFee - p.trailingMargin) * price)
      if (mLinLong - mLinShort > p.sellTrendThreshold ∧ yFit - stdFit > price) ∧
          holding = true then
        .ok (some .CLOSE, sellBar1)
      else if (mLinShort - mLinLong > p.buyTrendThreshold ∧ yFit + stdFit < price) ∧
          holding = false then
        .ok (some .OPEN, price * (1 - p.lossMargin + 2 * p.tradeFee))
      else .ok (none, sellBar1)
  | _, _ => .error ()

lemma pyTrunc_isEmpty_false {α : Type} (l : List α) (k : ℕ) (h0 : 0 < k)
    (h1 : k < l.length) : (pyTrunc l k).isEmpty = false := by
  have hk : k ≠ 0 := Nat.pos_iff_ne_zero.mp h0
  have hlen : (pyTrunc l k).length = l.length - k := by
    rw [pyTrunc, if_neg hk, List.length_take]
    exact Nat.min_eq_left (by omega)
  cases hpt : pyTrunc l k with
  | nil => rw [hpt] at hlen; simp at hlen; omega
  | cons a t => rfl

lemma fitLine_ok (x y : List ℚ) (h : x.isEmpty = false) :
    ∃ m b, fitLine x y = .ok (m, b) := by
  simp only [fitLine, h, Bool.false_eq_true, if_false]
  exact ⟨_, _, rfl⟩

/-- C1: the claim is false on the code.  Scenario B (closings = 50 equally
spaced values from 100 to 200, fee = 0, one stub strategy that OPENs on
the first eligible tick and never CLOSEs) returns baseline 199 but final
equity 39700/299 ≈ 132.78: the two differ by more than 66, far beyond any
floating-point tolerance, because the buy executes at `y_smooth[99]` (the
first window's last price) and the forced liquidation at `y_smooth[197]`,
not at the endpoints the baseline uses. -/
theorem c1_counterexample :
    (backtest stubTick 0 closings50 (freshExec [false])).1 =
      .ok (199, 39700 / 299) ∧
    (199 : ℚ) ≠ 39700 / 299 ∧ (199 : ℚ) - 39700 / 299 > 50 := by
  refine ⟨by decide, by decide, by decide⟩

/-- C1 amended: on Scenario B the run yields `baseline =
100 / y_smooth[0] * y_smooth[198]` (= 199) while `finalEquity =
100 / y_smooth[99] * y_smooth[197]` (= 39700/299): the stub buys at the
first window's last smoothed price and the forced final liquidation sells
at the second-to-last smoothed price, so final equity does not equal the
baseline. -/
theorem c1_amended :
    (backtest stubTick 0 closings50 (freshExec [false])).1 =
      .ok (100 / (smoothedY closings50).headD 0 * (smoothedY closings50).getLastD 0,
        100 / (smoothedY closings50).getD 99 0 * (smoothedY closings50).getD 197 0) ∧
    100 / (smoothedY closings50).getD 99 0 * (smoothedY closings50).getD 197 0 ≠
      100 / (smoothedY closings50).headD 0 * (smoothedY closings50).getLastD 0 := by
  refine ⟨by decide, by decide⟩

/-- C2: the code defines no error classes at all, so no input raises an
`InsufficientDataError` or `InvalidPriceError`.  A one-point series makes
the smoothing crash (an unhandled numpy `ValueError`, modelled as `none`);
a series containing a non-positive price raises nothing at all — the
backtest completes and returns a result; a series long enough to smooth
but too short for the 100-point warm-up crashes with an unhandled
`NameError` (the loop-local `y` is unbound at the liquidation line). -/
theorem c2_code_bug :
    smoothData [1] = none ∧
    smoothData [] = none ∧
    (backtest noneTick 0 badC26 (freshExec ([] : List Unit))).1 =
      .ok (100 / (smoothedY badC26).headD 0 * (smoothedY badC26).getLastD 0, 100) ∧
    (backtest noneTick 0 tenOnes (freshExec ([] : List Unit))).1 = .error () := by
  refine ⟨by decide, by decide, by decide, by decide⟩

/-- C3: a failing `backtest` call does mutate caller-visible state.  On a
fresh executor (`_usd = 0`) a call with a one-point series raises inside
the smoothing step, yet leaves `_usd = 100` (the reset happens before any
validation).  With a strategy that OPENs once and raises on its next
tick, the failed call also leaves the newly appended transaction in the
ledger. -/
theorem c3_code_bug :
    (freshExec ([] : List Unit)).usd = 0 ∧
    (backtest noneTick 0 [1] (freshExec ([] : List Unit))).1 = .error () ∧
    (backtest noneTick 0 [1] (freshExec ([] : List Unit))).2.usd = 100 ∧
    (freshExec [(0 : ℕ)]).transactions.length = 0 ∧
    (backtest errOpenTick 0 onesC26 (freshExec [(0 : ℕ)])).1 = .error () ∧
    (backtest errOpenTick 0 onesC26 (freshExec [(0 : ℕ)])).2.transactions.length = 1 := by
  refine ⟨by decide, by decide, by decide, by decide, by decide, by decide⟩

/-- C7: stop-loss precedence.  With a valid configuration (both truncation
windows strictly between 0 and 100) and a full 100-point window, a
holding strategy whose last window price is at or below the current
`sellBar` returns CLOSE (leaving `sellBar` unchanged), regardless of the
fitted slopes, the intercepts, and the standard-deviation band. -/
theorem c7_stop_loss_precedence (p : LinRegParams) (sqrtQ : ℚ → ℚ)
    (sellBar price : ℚ) (times prices : List ℚ)
    (hs0 : 0 < p.shortTermWindow) (hs1 : p.shortTermWindow < 100)
    (hl0 : 0 < p.longTermWindow) (hl1 : p.longTermWindow < 100)
    (ht : times.length = 100) (_hp : prices.length = 100)
    (hlast : prices.getLast? = some price) (hle : price ≤ sellBar) :
    linRegTick p sqrtQ sellBar true times prices = .ok (some .CLOSE, sellBar) := by
  obtain ⟨m1, b1, hfit1⟩ :=
    fitLine_ok (pyTrunc times p.shortTermWindow) (pyTrunc prices p.shortTermWindow)
      (pyTrunc_isEmpty_false times p.shortTermWindow hs0 (ht ▸ hs1))
  obtain ⟨m2, b2, hfit2⟩ :=
    fitLine_ok (pyTrunc times p.longTermWindow) (pyTrunc prices p.longTermWindow)
      (pyTrunc_isEmpty_false times p.longTermWindow hl0 (ht ▸ hl1))
  obtain ⟨tl, htl⟩ : ∃ a, times.getLast? = some a :=
    Option.isSome_iff_exists.mp (List.getLast?_isSome.mpr
      (List.ne_nil_of_length_pos (by omega)))
  simp only [linRegTick, hfit1, hfit2, htl, hlast]
  simp [hle]

/-- A 100-point strictly increasing time window for the C7 witness. -/
def times100 : List ℚ := (List.range 100).map fun (i : ℕ) => (i : ℚ)

/-- A 100-point constant price window for the C7 witness. -/
def prices100 : List ℚ := List.replicate 100 1

theorem c7_witness :
    (0 < defaultParams.shortTermWindow ∧ defaultParams.shortTermWindow < 100 ∧
      0 < defaultParams.longTermWindow ∧ defaultParams.longTermWindow < 100 ∧
      times100.length = 100 ∧ prices100.length = 100 ∧
      prices100.getLast? = some 1 ∧ (1 : ℚ) ≤ 2) ∧
    linRegTick defaultParams (fun q => q) 2 true times100 prices100 =
      .ok (some .CLOSE, 2) :=
  ⟨⟨by decide, by decide, by decide, by decide, by decide, by decide, by decide,
      by decide⟩,
    c7_stop_loss_precedence defaultParams (fun q => q) 2 1 times100 prices100
      (by decide) (by decide) (by decide) (by decide) (by decide) (by decide)
      (by decide) (by decide)⟩

/-- The uniform sample grid `np.linspace(0, N-1, 4N)` built inside
`_smoothData`. -/
def smoothGrid (c : List ℚ) : List ℚ :=
  linspace (((diffL c).length : ℚ)) (c.length * 4)

lemma isEmpty_false_of_length_pos {α : Type} (l : List α) (h : 0 < l.length) :
    l.isEmpty = false := by
  cases l with
  | nil => simp at h
  | cons a t => rfl

lemma diffL_length (c : List ℚ) : (diffL c).length = c.length - 1 := by
  rw [diffL, List.length_zipWith, List.length_tail]
  omega

lemma linspace_length (stop : ℚ) (num : ℕ) : (linspace stop num).length = num := by
  rw [linspace]
  by_cases h : num ≤ 1
  · rw [if_pos h, List.length_replicate]
  · rw [if_neg h, List.length_map, List.length_range]

lemma smoothGrid_length (c : List ℚ) : (smoothGrid c).length = c.length * 4 :=
  linspace_length _ _

lemma trapzIncs_length (l : List (ℚ × ℚ)) : (trapzIncs l).length = l.length - 1 := by
  induction l with
  | nil => rfl
  | cons a rest ih =>
    cases rest with
    | nil => rfl
    | cons b rest2 =>
      obtain ⟨a1, a2⟩ := a
      obtain ⟨b1, b2⟩ := b
      simp only [trapzIncs, List.length_cons, ih]
      omega

lemma partialSums_length (acc : ℚ) (l : List ℚ) :
    (partialSums acc l).length = l.length := by
  induction l generalizing acc with
  | nil => rfl
  | cons a rest ih =>
    rw [partialSums]
    cases hq : acc + a with
    | mk' n d h1 h2 => simp [ih]

lemma cumtrapz_length (y x : List ℚ) :
    (cumtrapz y x).length = min y.length x.length - 1 := by
  rw [cumtrapz, partialSums_length, trapzIncs_length, List.length_zip]

/-- Unfolding of `smoothData` on a series long enough to smooth. -/
lemma smoothData_eq (c : List ℚ) (h : 2 ≤ c.length) :
    smoothData c =
      some ((smoothGrid c).tail.map (fun v => v + 1 / 2),
        (cumtrapz ((smoothGrid c).map (interpAt (diffL c))) (smoothGrid c)).map
          (fun v => v + c.headD 0)) := by
  have hdne : (diffL c).isEmpty = false :=
    isEmpty_false_of_length_pos _ (by rw [diffL_length]; omega)
  simp only [smoothData, smoothGrid, hdne, Bool.false_eq_true, if_false]

lemma getD_map_tail (l : List ℚ) (f : ℚ → ℚ) (i : ℕ) (hi : i + 1 < l.length) :
    (l.tail.map f).getD i 0 = f (l.getD (i + 1) 0) := by
  have h1 : l.tail[i]? = l[i + 1]? := List.getElem?_tail l i
  have h2 : l[i + 1]? = some l[i + 1] := List.getElem?_eq_getElem hi
  rw [List.getD_eq_getElem?_getD, List.getElem?_map, h1, h2,
    List.getD_eq_getElem?_getD, h2]
  rfl

/-- C6: the length law.  For input length `N ≥ 2` the smoothing step
succeeds and produces `x_smooth` and `y_smooth` of length exactly
`4N - 1`, with `x_smooth[i]` equal to the `(i+1)`-th uniform grid point
plus `1/2`. -/
theorem c6_length_law (c : List ℚ) (h : 2 ≤ c.length) :
    ∃ xS yS, smoothData c = some (xS, yS) ∧
      xS.length = 4 * c.length - 1 ∧ yS.length = 4 * c.length - 1 ∧
      ∀ i < xS.length, xS.getD i 0 = (smoothGrid c).getD (i + 1) 0 + 1 / 2 := by
  refine ⟨_, _, smoothData_eq c h, ?_, ?_, ?_⟩
  · rw [List.length_map, List.length_tail, smoothGrid_length]
    omega
  · rw [List.length_map, cumtrapz_length, List.length_map, smoothGrid_length]
    omega
  · intro i hi
    rw [List.length_map, List.length_tail, smoothGrid_length] at hi
    exact getD_map_tail _ _ _ (by rw [smoothGrid_length]; omega)

theorem c6_witness :
    2 ≤ ([0, 1] : List ℚ).length ∧
    ∃ xS yS, smoothData [0, 1] = some (xS, yS) ∧
      xS.length = 4 * ([0, 1] : List ℚ).length - 1 ∧
      yS.length = 4 * ([0, 1] : List ℚ).length - 1 ∧
      ∀ i < xS.length, xS.getD i 0 = (smoothGrid [0, 1]).getD (i + 1) 0 + 1 / 2 :=
  ⟨by decide, c6_length_law [0, 1] (by decide)⟩

/-- Case analysis of a successful `stratStep`: either the portfolio is
untouched, or an OPEN trade fired, or a CLOSE trade fired. -/
lemma stratStep_cases {σ : Type} (tick : TickFn σ) (fee : ℚ) (xS yS : List ℚ)
    (index : ℕ) (s : σ) (port : PortSt) (s' : σ) (port' : PortSt)
    (h : stratStep tick fee xS yS index s port = .ok (s', port')) :
    port' = port ∨
    (∃ yl, (windowAt yS index).getLast? = some yl ∧ 0 < port.usd ∧
      port' = ⟨0, port.usd / yl * (1 - fee),
        port.txs ++ [(xS.getD index 0, yS.getD index 0, true)]⟩) ∨
    (∃ yl, (windowAt yS index).getLast? = some yl ∧ 0 < port.token ∧
      port' = ⟨port.token * yl * (1 - fee), 0,
        port.txs ++ [(xS.getD index 0, yS.getD index 0, false)]⟩) := by
  simp only [stratStep] at h
  split at h
  · cases h
  · split at h
    · split at h
      · split at h
        · cases h
        · rename_i hmatch hyl
          refine Or.inr (Or.inl ⟨_, hyl, by assumption, ?_⟩)
          cases h
          rfl
      · cases h
        exact Or.inl rfl
    · split at h
      · split at h
        · cases h
        · rename_i hmatch hyl
          refine Or.inr (Or.inr ⟨_, hyl, by assumption, ?_⟩)
          cases h
          rfl
      · cases h
        exact Or.inl rfl
    · cases h
      exact Or.inl rfl

lemma stratStep_txs {σ : Type} (tick : TickFn σ) (fee : ℚ) (xS yS : List ℚ)
    (index : ℕ) (s : σ) (port : PortSt) (s' : σ) (port' : PortSt)
    (h : stratStep tick fee xS yS index s port = .ok (s', port')) :
    ∃ t, port'.txs = port.txs ++ t := by
  rcases stratStep_cases tick fee xS yS index s port s' port' h with
    h1 | ⟨yl, _, _, h1⟩ | ⟨yl, _, _, h1⟩
  · exact ⟨[], by rw [h1, List.append_nil]⟩
  · exact ⟨_, by rw [h1]⟩
  · exact ⟨_, by rw [h1]⟩

lemma stratsStep_cons_error {σ : Type} (tick : TickFn σ) (fee : ℚ)
    (xS yS : List ℚ) (index : ℕ) (s : σ) (rest : List σ) (port : PortSt)
    (e : Unit) (h : stratStep tick fee xS yS index s port = .error e) :
    stratsStep tick fee xS yS index (s :: rest) port = (false, s :: rest, port) := by
  rw [stratsStep, h]

lemma stratsStep_cons_ok {σ : Type} (tick : TickFn σ) (fee : ℚ)
    (xS yS : List ℚ) (index : ℕ) (s : σ) (rest : List σ) (port : PortSt)
    (s' : σ) (port' : PortSt)
    (h : stratStep tick fee xS yS index s port = .ok (s', port')) :
    stratsStep tick fee xS yS index (s :: rest) port =
      ((stratsStep tick fee xS yS index rest port').1,
        s' :: (stratsStep tick fee xS yS index rest port').2.1,
        (stratsStep tick fee xS yS index rest port').2.2) := by
  rw [stratsStep, h]

lemma idxLoop_cons_stop {σ : Type} (tick : TickFn σ) (fee : ℚ)
    (xS yS : List ℚ) (i : ℕ) (rest : List ℕ) (ss ss' : List σ)
    (port port' : PortSt)
    (h : stratsStep tick fee xS yS i ss port = (false, ss', port')) :
    idxLoop tick fee xS yS (i :: rest) ss port = (false, ss', port') := by
  rw [idxLoop, h]

lemma idxLoop_cons_go {σ : Type} (tick : TickFn σ) (fee : ℚ)
    (xS yS : List ℚ) (i : ℕ) (rest : List ℕ) (ss ss' : List σ)
    (port port' : PortSt)
    (h : stratsStep tick fee xS yS i ss port = (true, ss', port')) :
    idxLoop tick fee xS yS (i :: rest) ss port =
      idxLoop tick fee xS yS rest ss' port' := by
  rw [idxLoop, h]

/-- Unfolding of `backtest` on a smoothable series, in terms of the loop
result. -/
lemma backtest_eq_of_loop {σ : Type} (tick : TickFn σ) (fee : ℚ) (c : List ℚ)
    (st : ExecState σ) (xS yS : List ℚ) (ok : Bool) (ss' : List σ)
    (port' : PortSt) (hsm : smoothData c = some (xS, yS))
    (hloop : idxLoop tick fee xS yS (List.range' 100 (xS.length - 100))
      st.strats ⟨100, 0, st.transactions⟩ = (ok, ss', port')) :
    backtest tick fee c st =
      if ok then
        if 100 < xS.length then
          (.ok (100 / yS.headD 0 * yS.getLastD 0 * (1 - fee) ^ 2,
              port'.usd + port'.token * (windowAt yS (xS.length - 1)).getLastD 0 *
                (1 - fee)),
            ⟨port'.usd + port'.token * (windowAt yS (xS.length - 1)).getLastD 0 *
                (1 - fee), 0, ss', port'.txs, xS, yS⟩)
        else (.error (), ⟨port'.usd, port'.token, ss', port'.txs, xS, yS⟩)
      else (.error (), ⟨port'.usd, port'.token, ss', port'.txs, xS, yS⟩) := by
  rw [backtest, hsm]
  dsimp only
  rw [hloop]

lemma stratsStep_txs {σ : Type} (tick : TickFn σ) (fee : ℚ) (xS yS : List ℚ)
    (index : ℕ) (ss : List σ) (port : PortSt) :
    ∃ t, (stratsStep tick fee xS yS index ss port).2.2.txs = port.txs ++ t := by
  induction ss generalizing port with
  | nil => exact ⟨[], by rw [stratsStep, List.append_nil]⟩
  | cons s rest ih =>
    cases hstep : stratStep tick fee xS yS index s port with
    | error e =>
      rw [stratsStep_cons_error tick fee xS yS index s rest port e hstep]
      exact ⟨[], by rw [List.append_nil]⟩
    | ok r =>
      obtain ⟨s', port'⟩ := r
      rw [stratsStep_cons_ok tick fee xS yS index s rest port s' port' hstep]
      obtain ⟨t1, ht1⟩ := stratStep_txs tick fee xS yS index s port s' port' hstep
      obtain ⟨t2, ht2⟩ := ih port'
      exact ⟨t1 ++ t2, by rw [ht2, ht1, List.append_assoc]⟩

lemma idxLoop_txs {σ : Type} (tick : TickFn σ) (fee : ℚ) (xS yS : List ℚ)
    (idxs : List ℕ) (ss : List σ) (port : PortSt) :
    ∃ t, (idxLoop tick fee xS yS idxs ss port).2.2.txs = port.txs ++ t := by
  induction idxs generalizing ss port with
  | nil => exact ⟨[], by rw [idxLoop, List.append_nil]⟩
  | cons i rest ih =>
    obtain ⟨t1, ht1⟩ := stratsStep_txs tick fee xS yS i ss port
    rcases hstep : stratsStep tick fee xS yS i ss port with ⟨ok, ss', port'⟩
    rw [hstep] at ht1
    simp only at ht1
    cases ok with
    | false =>
      rw [idxLoop_cons_stop tick fee xS yS i rest ss ss' port port' hstep]
      exact ⟨t1, ht1⟩
    | true =>
      rw [idxLoop_cons_go tick fee xS yS i rest ss ss' port port' hstep]
      obtain ⟨t2, ht2⟩ := ih ss' port'
      exact ⟨t1 ++ t2, by rw [ht2, ht1, List.append_assoc]⟩

/-- Every `backtest` call only appends to the transaction ledger. -/
lemma backtest_txs {σ : Type} (tick : TickFn σ) (fee : ℚ) (c : List ℚ)
    (st : ExecState σ) :
    ∃ t, ((backtest tick fee c st).2).transactions = st.transactions ++ t := by
  cases hsm : smoothData c with
  | none =>
    refine ⟨[], ?_⟩
    rw [backtest, hsm, List.append_nil]
  | some p =>
    obtain ⟨xS, yS⟩ := p
    rcases hloop : idxLoop tick fee xS yS (List.range' 100 (xS.length - 100))
        st.strats ⟨100, 0, st.transactions⟩ with ⟨ok, ss', port'⟩
    rw [backtest_eq_of_loop tick fee c st xS yS ok ss' port' hsm hloop]
    obtain ⟨t, ht⟩ := idxLoop_txs tick fee xS yS (List.range' 100 (xS.length - 100))
      st.strats ⟨100, 0, st.transactions⟩
    rw [hloop] at ht
    simp only at ht
    cases ok with
    | false => exact ⟨t, ht⟩
    | true =>
      by_cases hL : 100 < xS.length
      · rw [if_pos rfl, if_pos hL]
        exact ⟨t, ht⟩
      · rw [if_pos rfl, if_neg hL]
        exact ⟨t, ht⟩

/-- C5: across two successive calls on the same executor the ledger only
accumulates (each call appends; the length after the second call is at
least the length after the first), while the portfolio fields are fully
reset at the start of every call: the result does not depend on the
incoming `usd`/`token`, and on the path that fails before the loop the
caller observes exactly the reset values `usd = 100`, `token = 0`. -/
theorem c5_ledger_accumulates {σ : Type} (tick : TickFn σ) (fee1 fee2 : ℚ)
    (c1 c2 : List ℚ) (st : ExecState σ) :
    (∃ t1, ((backtest tick fee1 c1 st).2).transactions = st.transactions ++ t1) ∧
    ((backtest tick fee1 c1 st).2).transactions.length ≤
      ((backtest tick fee2 c2 ((backtest tick fee1 c1 st).2)).2).transactions.length ∧
    (∀ a b, backtest tick fee1 c1 { st with usd := a, token := b } =
      backtest tick fee1 c1 st) ∧
    (smoothData c1 = none →
      ((backtest tick fee1 c1 st).2).usd = 100 ∧
        ((backtest tick fee1 c1 st).2).token = 0) := by
  refine ⟨backtest_txs tick fee1 c1 st, ?_, ?_, ?_⟩
  · obtain ⟨t2, ht2⟩ := backtest_txs tick fee2 c2 ((backtest tick fee1 c1 st).2)
    rw [ht2, List.length_append]
    omega
  · intro a b
    cases hsm : smoothData c1 with
    | none => simp only [backtest, hsm]
    | some p => simp only [backtest, hsm]
  · intro h
    rw [backtest, h]
    exact ⟨rfl, rfl⟩

theorem c5_witness :
    (∃ t1, ((backtest noneTick 0 [1] (freshExec [()])).2).transactions =
      (freshExec [()]).transactions ++ t1) ∧
    ((backtest noneTick 0 [1] (freshExec [()])).2).transactions.length ≤
      ((backtest noneTick 0 onesC26
        ((backtest noneTick 0 [1] (freshExec [()])).2)).2).transactions.length ∧
    (∀ a b, backtest noneTick 0 [1] { freshExec [()] with usd := a, token := b } =
      backtest noneTick 0 [1] (freshExec [()])) ∧
    (smoothData [1] = none →
      ((backtest noneTick 0 [1] (freshExec [()])).2).usd = 100 ∧
        ((backtest noneTick 0 [1] (freshExec [()])).2).token = 0) :=
  c5_ledger_accumulates noneTick 0 0 [1] onesC26 (freshExec [()])

/-- Portfolio exclusivity: exactly one of `usd`, `token` is strictly
positive. -/
def Excl (port : PortSt) : Prop :=
  (0 < port.usd ∧ port.token = 0) ∨ (port.usd = 0 ∧ 0 < port.token)

instance (port : PortSt) : Decidable (Excl port) := by
  unfold Excl
  infer_instance

lemma windowAt_mem (l : List ℚ) (i : ℕ) (yl : ℚ) (h : yl ∈ windowAt l i) :
    yl ∈ l :=
  List.mem_of_mem_drop (List.mem_of_mem_take h)

lemma getLastD_mem (l : List ℚ) (d : ℚ) (h : l ≠ []) : l.getLastD d ∈ l := by
  rw [List.getLastD_eq_getLast? d l]
  cases hgl : l.getLast? with
  | none => exact absurd (List.getLast?_eq_none_iff.mp hgl) h
  | some a => exact List.mem_of_mem_getLast? hgl

lemma stratStep_excl {σ : Type} (tick : TickFn σ) (fee : ℚ) (xS yS : List ℚ)
    (index : ℕ) (s : σ) (port : PortSt) (s' : σ) (port' : PortSt)
    (hfee : fee < 1) (hpos : ∀ q ∈ yS, 0 < q)
    (h : stratStep tick fee xS yS index s port = .ok (s', port'))
    (hex : Excl port) : Excl port' := by
  have hfee1 : 0 < 1 - fee := by linarith
  rcases stratStep_cases tick fee xS yS index s port s' port' h with
    h1 | ⟨yl, hyl, hu, h1⟩ | ⟨yl, hyl, htk, h1⟩
  · rwa [h1]
  · have hylpos : 0 < yl :=
      hpos yl (windowAt_mem yS index yl (List.mem_of_mem_getLast? hyl))
    rw [h1]
    exact Or.inr ⟨rfl, mul_pos (div_pos hu hylpos) hfee1⟩
  · have hylpos : 0 < yl :=
      hpos yl (windowAt_mem yS index yl (List.mem_of_mem_getLast? hyl))
    rw [h1]
    exact Or.inl ⟨mul_pos (mul_pos htk hylpos) hfee1, rfl⟩

lemma stratsStep_excl {σ : Type} (tick : TickFn σ) (fee : ℚ) (xS yS : List ℚ)
    (index : ℕ) (ss : List σ) (port : PortSt)
    (hfee : fee < 1) (hpos : ∀ q ∈ yS, 0 < q) (hex : Excl port) :
    Excl (stratsStep tick fee xS yS index ss port).2.2 := by
  induction ss generalizing port with
  | nil => rw [stratsStep]; exact hex
  | cons s rest ih =>
    cases hstep : stratStep tick fee xS yS index s port with
    | error e =>
      rw [stratsStep_cons_error tick fee xS yS index s rest port e hstep]
      exact hex
    | ok r =>
      obtain ⟨s', port'⟩ := r
      rw [stratsStep_cons_ok tick fee xS yS index s rest port s' port' hstep]
      exact ih port' (stratStep_excl tick fee xS yS index s port s' port'
        hfee hpos hstep hex)

lemma idxLoop_excl {σ : Type} (tick : TickFn σ) (fee : ℚ) (xS yS : List ℚ)
    (idxs : List ℕ) (ss : List σ) (port : PortSt)
    (hfee : fee < 1) (hpos : ∀ q ∈ yS, 0 < q) (hex : Excl port) :
    Excl (idxLoop tick fee xS yS idxs ss port).2.2 := by
  induction idxs generalizing ss port with
  | nil => rw [idxLoop]; exact hex
  | cons i rest ih =>
    have hmid := stratsStep_excl tick fee xS yS i ss port hfee hpos hex
    rcases hstep : stratsStep tick fee xS yS i ss port with ⟨ok, ss', port'⟩
    rw [hstep] at hmid
    simp only at hmid
    cases ok with
    | false =>
      rw [idxLoop_cons_stop tick fee xS yS i rest ss ss' port port' hstep]
      exact hmid
    | true =>
      rw [idxLoop_cons_go tick fee xS yS i rest ss ss' port port' hstep]
      exact ih ss' port' hmid

lemma smoothData_two_le (c : List ℚ) (p : List ℚ × List ℚ)
    (hsm : smoothData c = some p) : 2 ≤ c.length := by
  by_cases he : (diffL c).isEmpty
  · rw [smoothData] at hsm
    simp only [he, if_true] at hsm
    exact Option.noConfusion hsm
  · have := diffL_length c
    cases hd : diffL c with
    | nil => rw [hd] at he; simp at he
    | cons a t =>
      rw [hd] at this
      simp only [List.length_cons] at this
      omega

lemma smoothData_lengths (c : List ℚ) (xS yS : List ℚ)
    (hsm : smoothData c = some (xS, yS)) :
    xS.length = 4 * c.length - 1 ∧ yS.length = 4 * c.length - 1 := by
  have h2 := smoothData_two_le c _ hsm
  rw [smoothData_eq c h2, Option.some.injEq, Prod.mk.injEq] at hsm
  obtain ⟨hx, hy⟩ := hsm
  constructor
  · rw [← hx, List.length_map, List.length_tail, smoothGrid_length]
    omega
  · rw [← hy, List.length_map, cumtrapz_length, List.length_map, smoothGrid_length]
    omega

/-- C4: portfolio exclusivity.  When `fee < 1` and every smoothed price is
positive, every observable portfolio state of a run satisfies `Excl`
(exactly one of `usd`, `token` strictly positive): each single strategy
evaluation preserves it (so it holds after every recorded transaction),
every partial execution of the loop preserves it, the reset state holds
cash only, and on a successful run the state after the forced final
liquidation has `usd > 0` and `token = 0`. -/
theorem c4_portfolio_exclusivity {σ : Type} (tick : TickFn σ) (fee : ℚ)
    (c : List ℚ) (hfee : fee < 1) (hpos : ∀ q ∈ smoothedY c, 0 < q) :
    (∀ (index : ℕ) (s : σ) (port : PortSt) (s' : σ) (port' : PortSt),
      Excl port →
      stratStep tick fee (smoothedX c) (smoothedY c) index s port = .ok (s', port') →
      Excl port') ∧
    (∀ (idxs : List ℕ) (ss : List σ) (port : PortSt), Excl port →
      Excl (idxLoop tick fee (smoothedX c) (smoothedY c) idxs ss port).2.2) ∧
    (∀ txs, Excl ⟨100, 0, txs⟩) ∧
    (∀ (st : ExecState σ) (r : ℚ × ℚ) (st' : ExecState σ),
      backtest tick fee c st = (.ok r, st') → 0 < st'.usd ∧ st'.token = 0) := by
  refine ⟨?_, ?_, ?_, ?_⟩
  · intro index s port s' port' hex h
    exact stratStep_excl tick fee (smoothedX c) (smoothedY c) index s port s' port'
      hfee hpos h hex
  · intro idxs ss port hex
    exact idxLoop_excl tick fee (smoothedX c) (smoothedY c) idxs ss port
      hfee hpos hex
  · intro txs
    exact Or.inl ⟨by norm_num, rfl⟩
  · intro st r st' h
    cases hsm : smoothData c with
    | none =>
      rw [backtest, hsm] at h
      simp at h
    | some p =>
      obtain ⟨xS, yS⟩ := p
      have hx : smoothedX c = xS := by rw [smoothedX, hsm]; rfl
      have hy : smoothedY c = yS := by rw [smoothedY, hsm]; rfl
      rcases hloop : idxLoop tick fee xS yS (List.range' 100 (xS.length - 100))
          st.strats ⟨100, 0, st.transactions⟩ with ⟨ok, ss', port'⟩
      rw [backtest_eq_of_loop tick fee c st xS yS ok ss' port' hsm hloop] at h
      cases ok with
      | false => simp at h
      | true =>
        by_cases hL : 100 < xS.length
        · rw [if_pos rfl, if_pos hL] at h
          obtain ⟨hfst, hsnd⟩ := Prod.mk.injEq .. ▸ h
          have hexcl : Excl port' := by
            have := idxLoop_excl tick fee (smoothedX c) (smoothedY c)
              (List.range' 100 (xS.length - 100)) st.strats ⟨100, 0, st.transactions⟩
              hfee hpos (Or.inl ⟨by norm_num, rfl⟩)
            rw [hx, hy, hloop] at this
            simpa using this
          have hylen : yS.length = xS.length := by
            obtain ⟨h1, h2⟩ := smoothData_lengths c xS yS hsm
            omega
          have hwin_ne : windowAt yS (xS.length - 1) ≠ [] := by
            have : (windowAt yS (xS.length - 1)).length = 100 := by
              rw [windowAt, List.length_take, List.length_drop]
              omega
            intro hnil
            rw [hnil] at this
            simp at this
          have hylpos : 0 < (windowAt yS (xS.length - 1)).getLastD 0 := by
            rw [← hy] at *
            exact hpos _ (windowAt_mem (smoothedY c) (xS.length - 1) _
              (getLastD_mem _ 0 hwin_ne))
          rw [← hsnd]
          have hfee1 : 0 < 1 - fee := by linarith
          rcases hexcl with ⟨hu, ht⟩ | ⟨hu, ht⟩
          · refine ⟨?_, rfl⟩
            simp only [ht]
            rw [zero_mul, zero_mul, add_zero]
            exact hu
          · refine ⟨?_, rfl⟩
            rw [hu, zero_add]
            exact mul_pos (mul_pos ht hylpos) hfee1
        · rw [if_pos rfl, if_neg hL] at h
          simp at h

theorem c4_witness :
    ((0 : ℚ) < 1 ∧ ∀ q ∈ smoothedY onesC26, 0 < q) ∧
    ((∀ (index : ℕ) (s : Unit) (port : PortSt) (s' : Unit) (port' : PortSt),
      Excl port →
      stratStep noneTick 0 (smoothedX onesC26) (smoothedY onesC26) index s port =
        .ok (s', port') → Excl port') ∧
    (∀ (idxs : List ℕ) (ss : List Unit) (port : PortSt), Excl port →
      Excl (idxLoop noneTick 0 (smoothedX onesC26) (smoothedY onesC26)
        idxs ss port).2.2) ∧
    (∀ txs, Excl ⟨100, 0, txs⟩) ∧
    (∀ (st : ExecState Unit) (r : ℚ × ℚ) (st' : ExecState Unit),
      backtest noneTick 0 onesC26 st = (.ok r, st') →
        0 < st'.usd ∧ st'.token = 0)) :=
  ⟨⟨by norm_num, by decide⟩,
    c4_portfolio_exclusivity noneTick 0 onesC26 (by norm_num) (by decide)⟩

lemma stratStep_state {σ : Type} (tick : TickFn σ) (fee : ℚ) (xS yS : List ℚ)
    (index : ℕ) (s : σ) (port : PortSt) (s' : σ) (port' : PortSt)
    (hframe : ∀ (s0 : σ) (h0 : Bool) (x0 y0 : List ℚ) r,
      tick s0 h0 x0 y0 = .ok r → r.2 = s0)
    (h : stratStep tick fee xS yS index s port = .ok (s', port')) : s' = s := by
  simp only [stratStep] at h
  split at h
  · cases h
  · rename_i motion s2 heq
    have hs2 : s2 = s := hframe _ _ _ _ _ heq
    split at h
    · split at h
      · split at h
        · cases h
        · have h1 : s2 = s' := congrArg Prod.fst (Except.ok.inj h)
          exact h1 ▸ hs2
      · have h1 : s2 = s' := congrArg Prod.fst (Except.ok.inj h)
        exact h1 ▸ hs2
    · split at h
      · split at h
        · cases h
        · have h1 : s2 = s' := congrArg Prod.fst (Except.ok.inj h)
          exact h1 ▸ hs2
      · have h1 : s2 = s' := congrArg Prod.fst (Except.ok.inj h)
        exact h1 ▸ hs2
    · have h1 : s2 = s' := congrArg Prod.fst (Except.ok.inj h)
      exact h1 ▸ hs2

lemma stratsStep_state {σ : Type} (tick : TickFn σ) (fee : ℚ) (xS yS : List ℚ)
    (index : ℕ)
    (hframe : ∀ (s0 : σ) (h0 : Bool) (x0 y0 : List ℚ) r,
      tick s0 h0 x0 y0 = .ok r → r.2 = s0)
    (ss : List σ) (port : PortSt) :
    (stratsStep tick fee xS yS index ss port).2.1 = ss := by
  induction ss generalizing port with
  | nil => rw [stratsStep]
  | cons s rest ih =>
    cases hstep : stratStep tick fee xS yS index s port with
    | error e =>
      rw [stratsStep_cons_error tick fee xS yS index s rest port e hstep]
    | ok r =>
      obtain ⟨s', port'⟩ := r
      rw [stratsStep_cons_ok tick fee xS yS index s rest port s' port' hstep]
      have hs := stratStep_state tick fee xS yS index s port s' port' hframe hstep
      simp only
      rw [hs, ih port']

lemma idxLoop_state {σ : Type} (tick : TickFn σ) (fee : ℚ) (xS yS : List ℚ)
    (hframe : ∀ (s0 : σ) (h0 : Bool) (x0 y0 : List ℚ) r,
      tick s0 h0 x0 y0 = .ok r → r.2 = s0)
    (idxs : List ℕ) (ss : List σ) (port : PortSt) :
    (idxLoop tick fee xS yS idxs ss port).2.1 = ss := by
  induction idxs generalizing ss port with
  | nil => rw [idxLoop]
  | cons i rest ih =>
    have hmid := stratsStep_state tick fee xS yS i hframe ss port
    rcases hstep : stratsStep tick fee xS yS i ss port with ⟨ok, ss', port'⟩
    rw [hstep] at hmid
    simp only at hmid
    cases ok with
    | false =>
      rw [idxLoop_cons_stop tick fee xS yS i rest ss ss' port port' hstep]
      exact hmid
    | true =>
      rw [idxLoop_cons_go tick fee xS yS i rest ss ss' port port' hstep]
      rw [ih ss' port', hmid]

/-- A `backtest` call leaves the registered strategies' states untouched
whenever the strategy itself does not change them. -/
lemma backtest_strats {σ : Type} (tick : TickFn σ) (fee : ℚ) (c : List ℚ)
    (st : ExecState σ)
    (hframe : ∀ (s0 : σ) (h0 : Bool) (x0 y0 : List ℚ) r,
      tick s0 h0 x0 y0 = .ok r → r.2 = s0) :
    ((backtest tick fee c st).2).strats = st.strats := by
  cases hsm : smoothData c with
  | none => rw [backtest, hsm]
  | some p =>
    obtain ⟨xS, yS⟩ := p
    have hst := idxLoop_state tick fee xS yS hframe
      (List.range' 100 (xS.length - 100)) st.strats ⟨100, 0, st.transactions⟩
    rcases hloop : idxLoop tick fee xS yS (List.range' 100 (xS.length - 100))
        st.strats ⟨100, 0, st.transactions⟩ with ⟨ok, ss', port'⟩
    rw [hloop] at hst
    simp only at hst
    rw [backtest_eq_of_loop tick fee c st xS yS ok ss' port' hsm hloop]
    cases ok with
    | false => exact hst
    | true =>
      by_cases hL : 100 < xS.length
      · rw [if_pos rfl, if_pos hL]
        exact hst
      · rw [if_pos rfl, if_neg hL]
        exact hst

/-- C10: `backtest` never writes the internal state of registered
strategy instances.  For any strategy whose tick leaves its own state
unchanged (the executor's only way of touching strategy state is through
the value the tick returns), the states after one call equal the states
before it, and the states in effect at the start (hence at the first
tick) of a second call on the same instances equal the states at the end
of the first call.  Instantiated at `σ = ℚ` this is the `sellBar` of a
`LinRegStrategy`. -/
theorem c10_strategy_state_frame {σ : Type} (tick : TickFn σ)
    (hframe : ∀ (s0 : σ) (h0 : Bool) (x0 y0 : List ℚ) r,
      tick s0 h0 x0 y0 = .ok r → r.2 = s0)
    (fee1 fee2 : ℚ) (c1 c2 : List ℚ) (st : ExecState σ) :
    ((backtest tick fee1 c1 st).2).strats = st.strats ∧
    ((backtest tick fee2 c2 ((backtest tick fee1 c1 st).2)).2).strats =
      ((backtest tick fee1 c1 st).2).strats :=
  ⟨backtest_strats tick fee1 c1 st hframe,
    backtest_strats tick fee2 c2 ((backtest tick fee1 c1 st).2) hframe⟩

/-- A state-preserving tick over the `LinRegStrategy` state type (the
`sellBar` rational) for the C10 witness. -/
def holdBarTick : TickFn ℚ := fun sellBar _ _ _ => .ok (none, sellBar)

theorem c10_witness :
    ((backtest holdBarTick 0 onesC26 (freshExec [5])).2).strats =
      (freshExec [(5 : ℚ)]).strats ∧
    ((backtest holdBarTick 0 closings50
        ((backtest holdBarTick 0 onesC26 (freshExec [5])).2)).2).strats =
      ((backtest holdBarTick 0 onesC26 (freshExec [5])).2).strats :=
  c10_strategy_state_frame holdBarTick
    (fun s0 h0 x0 y0 r hr => by
      rw [holdBarTick] at hr
      have := Except.ok.inj hr
      rw [← this])
    0 0 onesC26 closings50 (freshExec [5])

lemma windowAt_getLast (l : List ℚ) (i : ℕ) (h100 : 100 ≤ i)
    (hle : i ≤ l.length) :
    (windowAt l i).getLast? = some (l.getD (i - 1) 0) := by
  have hlen : (windowAt l i).length = 100 := by
    rw [windowAt, List.length_take, List.length_drop]
    omega
  have hidx : i - 100 + 99 = i - 1 := by omega
  have hi1 : i - 1 < l.length := by omega
  rw [List.getLast?_eq_getElem?, hlen]
  rw [windowAt, List.getElem?_take_of_lt (by omega : (99 : ℕ) < 100),
    List.getElem?_drop, hidx, List.getElem?_eq_getElem hi1,
    List.getD_eq_getElem?_getD, List.getElem?_eq_getElem hi1]
  rfl

lemma stratStep_open_eq {σ : Type} (tick : TickFn σ) (fee : ℚ)
    (xS yS : List ℚ) (index : ℕ) (s s' : σ) (port : PortSt)
    (h100 : 100 ≤ index) (hle : index ≤ yS.length)
    (htick : tick s (decide (0 < port.token)) (windowAt xS index)
      (windowAt yS index) = .ok (some .OPEN, s'))
    (husd : 0 < port.usd) :
    stratStep tick fee xS yS index s port =
      .ok (s', ⟨0, port.usd / yS.getD (index - 1) 0 * (1 - fee),
        port.txs ++ [(xS.getD index 0, yS.getD index 0, true)]⟩) := by
  simp only [stratStep, htick, windowAt_getLast yS index h100 hle, if_pos husd]

lemma stratStep_close_eq {σ : Type} (tick : TickFn σ) (fee : ℚ)
    (xS yS : List ℚ) (index : ℕ) (s s' : σ) (port : PortSt)
    (h100 : 100 ≤ index) (hle : index ≤ yS.length)
    (htick : tick s (decide (0 < port.token)) (windowAt xS index)
      (windowAt yS index) = .ok (some .CLOSE, s'))
    (htok : 0 < port.token) :
    stratStep tick fee xS yS index s port =
      .ok (s', ⟨port.token * yS.getD (index - 1) 0 * (1 - fee), 0,
        port.txs ++ [(xS.getD index 0, yS.getD index 0, false)]⟩) := by
  simp only [stratStep, htick, windowAt_getLast yS index h100 hle, if_pos htok]

/-- C9: the executor's price skew.  The window handed to a strategy at
loop index `i` ends at `y_smooth[i-1]`, and that window-last price is the
price a fired trade executes at — an OPEN converts at
`usd / y_smooth[i-1]` and a CLOSE at `token * y_smooth[i-1]` — while the
ledger entry records `(x_smooth[i], y_smooth[i])`; the recorded and
executed prices therefore differ whenever those adjacent smoothed prices
differ.  The forced final liquidation likewise sells at
`y_smooth[L-2]`, the last element of the final window, not at the final
smoothed price `y_smooth[L-1]`. -/
theorem c9_trade_price_skew {σ : Type} (tick : TickFn σ) (fee : ℚ)
    (xS yS : List ℚ) (index : ℕ) (s s' : σ) (port : PortSt)
    (c : List ℚ) (st : ExecState σ) (bl usdF : ℚ) (st' : ExecState σ)
    (h100 : 100 ≤ index) (hle : index ≤ yS.length) :
    ((windowAt yS index).getLast? = some (yS.getD (index - 1) 0)) ∧
    (tick s (decide (0 < port.token)) (windowAt xS index) (windowAt yS index) =
        .ok (some .OPEN, s') → 0 < port.usd →
      stratStep tick fee xS yS index s port =
        .ok (s', ⟨0, port.usd / yS.getD (index - 1) 0 * (1 - fee),
          port.txs ++ [(xS.getD index 0, yS.getD index 0, true)]⟩)) ∧
    (tick s (decide (0 < port.token)) (windowAt xS index) (windowAt yS index) =
        .ok (some .CLOSE, s') → 0 < port.token →
      stratStep tick fee xS yS index s port =
        .ok (s', ⟨port.token * yS.getD (index - 1) 0 * (1 - fee), 0,
          port.txs ++ [(xS.getD index 0, yS.getD index 0, false)]⟩)) ∧
    (smoothData c = some (xS, yS) →
      backtest tick fee c st = (.ok (bl, usdF), st') →
      ∃ ssF portF,
        idxLoop tick fee xS yS (List.range' 100 (xS.length - 100)) st.strats
          ⟨100, 0, st.transactions⟩ = (true, ssF, portF) ∧
        usdF = portF.usd + portF.token * yS.getD (yS.length - 2) 0 * (1 - fee)) := by
  refine ⟨windowAt_getLast yS index h100 hle, ?_, ?_, ?_⟩
  · intro htick husd
    exact stratStep_open_eq tick fee xS yS index s s' port h100 hle htick husd
  · intro htick htok
    exact stratStep_close_eq tick fee xS yS index s s' port h100 hle htick htok
  · intro hsm hbt
    have hylen : yS.length = xS.length := by
      obtain ⟨h1, h2⟩ := smoothData_lengths c xS yS hsm
      omega
    rcases hloop : idxLoop tick fee xS yS (List.range' 100 (xS.length - 100))
        st.strats ⟨100, 0, st.transactions⟩ with ⟨ok, ssF, portF⟩
    rw [backtest_eq_of_loop tick fee c st xS yS ok ssF portF hsm hloop] at hbt
    cases ok with
    | false => simp at hbt
    | true =>
      by_cases hL : 100 < xS.length
      · rw [if_pos rfl, if_pos hL] at hbt
        have hlast : (windowAt yS (xS.length - 1)).getLastD 0 =
            yS.getD (yS.length - 2) 0 := by
          rw [List.getLastD_eq_getLast? 0 (windowAt yS (xS.length - 1)),
            windowAt_getLast yS (xS.length - 1) (by omega) (by omega)]
          have : xS.length - 1 - 1 = yS.length - 2 := by omega
          rw [this]
          rfl
        obtain ⟨h1, h2⟩ := Prod.mk.injEq .. ▸ hbt
        have h3 : (bl, usdF).2 = usdF := rfl
        have husdF : usdF = portF.usd + portF.token *
            (windowAt yS (xS.length - 1)).getLastD 0 * (1 - fee) := by
          have h4 := congrArg Prod.snd (Except.ok.inj h1)
          exact h4.symm
        exact ⟨ssF, portF, rfl, by rw [husdF, hlast]⟩
      · rw [if_pos rfl, if_neg hL] at hbt
        simp at hbt

/-- A strategy that always asks to OPEN and keeps no state, for the C9
witness. -/
def alwaysOpenTick : TickFn Unit := fun s _ _ _ => .ok (some .OPEN, s)

theorem c9_witness :
    ((100 : ℕ) ≤ 100 ∧ 100 ≤ (smoothedY onesC26).length) ∧
    (((windowAt (smoothedY onesC26) 100).getLast? =
      some ((smoothedY onesC26).getD 99 0)) ∧
    (alwaysOpenTick () (decide ((0 : ℚ) < (⟨100, 0, []⟩ : PortSt).token))
        (windowAt (smoothedX onesC26) 100) (windowAt (smoothedY onesC26) 100) =
        .ok (some .OPEN, ()) → (0 : ℚ) < (⟨100, 0, []⟩ : PortSt).usd →
      stratStep alwaysOpenTick 0 (smoothedX onesC26) (smoothedY onesC26) 100 ()
          (⟨100, 0, []⟩ : PortSt) =
        .ok ((), ⟨0, (⟨100, 0, []⟩ : PortSt).usd / (smoothedY onesC26).getD 99 0 * (1 - 0),
          (⟨100, 0, []⟩ : PortSt).txs ++ [((smoothedX onesC26).getD 100 0,
            (smoothedY onesC26).getD 100 0, true)]⟩)) ∧
    (alwaysOpenTick () (decide ((0 : ℚ) < (⟨100, 0, []⟩ : PortSt).token))
        (windowAt (smoothedX onesC26) 100) (windowAt (smoothedY onesC26) 100) =
        .ok (some .CLOSE, ()) → (0 : ℚ) < (⟨100, 0, []⟩ : PortSt).token →
      stratStep alwaysOpenTick 0 (smoothedX onesC26) (smoothedY onesC26) 100 ()
          (⟨100, 0, []⟩ : PortSt) =
        .ok ((), ⟨(⟨100, 0, []⟩ : PortSt).token * (smoothedY onesC26).getD 99 0 * (1 - 0), 0,
          (⟨100, 0, []⟩ : PortSt).txs ++ [((smoothedX onesC26).getD 100 0,
            (smoothedY onesC26).getD 100 0, false)]⟩)) ∧
    (smoothData onesC26 = some (smoothedX onesC26, smoothedY onesC26) →
      backtest alwaysOpenTick 0 onesC26 (freshExec [()]) =
        (.ok (100, 100), (backtest alwaysOpenTick 0 onesC26 (freshExec [()])).2) →
      ∃ ssF portF,
        idxLoop alwaysOpenTick 0 (smoothedX onesC26) (smoothedY onesC26)
          (List.range' 100 ((smoothedX onesC26).length - 100))
          (freshExec [()]).strats ⟨100, 0, (freshExec [()]).transactions⟩ =
            (true, ssF, portF) ∧
        (100 : ℚ) = portF.usd + portF.token *
          (smoothedY onesC26).getD ((smoothedY onesC26).length - 2) 0 * (1 - 0))) :=
  ⟨⟨by decide, by decide⟩,
    (by
      have h := c9_trade_price_skew alwaysOpenTick 0 (smoothedX onesC26)
        (smoothedY onesC26) 100 () () (⟨100, 0, []⟩ : PortSt) onesC26
        (freshExec [()]) 100 100 (backtest alwaysOpenTick 0 onesC26 (freshExec [()])).2
        (by decide) (by decide)
      simpa using h)⟩

lemma getD_map (l : List ℚ) (f : ℚ → ℚ) (i : ℕ) (h : i < l.length) :
    (l.map f).getD i 0 = f (l.getD i 0) := by
  rw [List.getD_eq_getElem?_getD, List.getElem?_map, List.getElem?_eq_getElem h,
    List.getD_eq_getElem?_getD, List.getElem?_eq_getElem h]
  rfl

lemma getD_range_map (N : ℕ) (f : ℕ → ℚ) (j : ℕ) (h : j < N) :
    ((List.range N).map f).getD j 0 = f j := by
  have hlen : j < (List.range N).length := by rw [List.length_range]; exact h
  rw [List.getD_eq_getElem?_getD, List.getElem?_map, List.getElem?_eq_getElem hlen]
  simp [List.getElem_range]

lemma diffL_getD (l : List ℚ) (k : ℕ) (hk : k + 1 < l.length) :
    (diffL l).getD k 0 = l.getD (k + 1) 0 - l.getD k 0 := by
  have hk0 : k < l.length := by omega
  have htail : l.tail[k]? = l[k+1]? := List.getElem?_tail l k
  rw [diffL, List.getD_eq_getElem?_getD, List.getElem?_zipWith, htail,
    List.getElem?_eq_getElem hk0, List.getElem?_eq_getElem hk,
    List.getD_eq_getElem?_getD, List.getElem?_eq_getElem hk,
    List.getD_eq_getElem?_getD, List.getElem?_eq_getElem hk0]
  rfl

lemma interpAt_const (fp : List ℚ) (d : ℚ) (hlen : 0 < fp.length)
    (hall : ∀ k, k < fp.length → fp.getD k 0 = d) (t : ℚ) :
    interpAt fp t = d := by
  have hget : ∀ k, (hk : k < fp.length) → fp[k] = d := by
    intro k hk
    have := hall k hk
    rw [List.getD_eq_getElem?_getD, List.getElem?_eq_getElem hk] at this
    simpa using this
  rw [interpAt]
  by_cases h1 : t ≤ 0
  · rw [if_pos h1, List.headD_eq_head?_getD, List.head?_eq_getElem?,
      List.getElem?_eq_getElem hlen]
    simpa using hget 0 hlen
  · rw [if_neg h1]
    by_cases h2 : ((fp.length : ℚ) - 1) ≤ t
    · have hl : fp.length - 1 < fp.length := by omega
      rw [if_pos h2, List.getLastD_eq_getLast? 0 fp, List.getLast?_eq_getElem?,
        List.getElem?_eq_getElem hl]
      simpa using hget _ hl
    · rw [if_neg h2]
      push_neg at h1 h2
      have hfq : Rat.floor t = ⌊t⌋ := rfl
      have h0f : 0 ≤ ⌊t⌋ := Int.floor_nonneg.mpr (le_of_lt h1)
      have hjz : (((Rat.floor t).toNat : ℤ)) = ⌊t⌋ := by
        rw [hfq]
        exact Int.toNat_of_nonneg h0f
      have hQ : ((⌊t⌋ : ℤ) : ℚ) < (fp.length : ℚ) - 1 :=
        lt_of_le_of_lt (Int.floor_le t) h2
      have hjlt : (((Rat.floor t).toNat : ℤ)) < (fp.length : ℤ) - 1 := by
        rw [hjz]
        exact_mod_cast hQ
      have hjlen : (Rat.floor t).toNat + 1 < fp.length := by omega
      dsimp only
      rw [hall ((Rat.floor t).toNat) (by omega), hall ((Rat.floor t).toNat + 1) hjlen]
      ring

lemma partialSums_cons (s i : ℚ) (is : List ℚ) :
    partialSums s (i :: is) = (s + i) :: partialSums (s + i) is := rfl

lemma zip_map_const (d : ℚ) (x : List ℚ) :
    ((x.map fun _ => d).zip x) = x.map fun t => (d, t) := by
  induction x with
  | nil => rfl
  | cons a rest ih => simp only [List.map_cons, List.zip_cons_cons, ih]

lemma partialSums_trapz_const (d : ℚ) (x : List ℚ) :
    ∀ (a s : ℚ),
      partialSums s (trapzIncs ((a :: x).map fun t => ((d : ℚ), t))) =
        x.map fun t => s + d * (t - a) := by
  induction x with
  | nil => intro a s; rfl
  | cons b rest ih =>
    intro a s
    rw [List.map_cons, List.map_cons, trapzIncs, partialSums_cons, ← List.map_cons]
    rw [ih b (s + (d + d) / 2 * (b - a))]
    rw [List.map_cons]
    congr 1
    · ring
    · exact List.map_congr_left fun t _ => by ring

lemma cumtrapz_const (d a : ℚ) (x : List ℚ) :
    cumtrapz ((a :: x).map fun _ => d) (a :: x) = x.map fun t => d * (t - a) := by
  rw [cumtrapz, zip_map_const, partialSums_trapz_const d x a 0]
  exact List.map_congr_left fun t _ => by ring

/-- C8: the claim is false on the code.  For the exact arithmetic
progression `[0, 1]` (`c0 = 0`, `d = 1`) the first smoothed point is
`(x_smooth[0], y_smooth[0]) = (1/7 + 1/2, 1/7)`, which misses the input's
line `y = 0 + 1·x` by exactly `1/2` — the `+0.5` offset applied to
`x_smooth` shifts every point off the input's linear law by `d/2`, far
beyond floating-point tolerance. -/
theorem c8_counterexample :
    ([0, 1] : List ℚ) = (List.range 2).map (fun (i : ℕ) => 0 + 1 * (i : ℚ)) ∧
    (smoothedY [0, 1]).getD 0 0 ≠ 0 + 1 * ((smoothedX [0, 1]).getD 0 0) ∧
    (0 + 1 * ((smoothedX [0, 1]).getD 0 0)) - (smoothedY [0, 1]).getD 0 0 = 1 / 2 := by
  refine ⟨by decide, by decide, by decide⟩

/-- C8 amended: for an exact arithmetic progression the smoothed values do
lie on the input's line, but at the unshifted grid times: every point
satisfies `y_smooth[i] = c0 + d · (x_smooth[i] - 1/2)` exactly (the
`+0.5` midpoint offset of `x_smooth` must be removed first). -/
theorem c8_linear_roundtrip_amended (c0 d : ℚ) (N : ℕ) (hN : 2 ≤ N)
    (c : List ℚ) (hc : c = (List.range N).map fun (i : ℕ) => c0 + d * (i : ℚ)) :
    ∃ xS yS, smoothData c = some (xS, yS) ∧
      ∀ i < yS.length, yS.getD i 0 = c0 + d * (xS.getD i 0 - 1 / 2) := by
  have hclen : c.length = N := by rw [hc, List.length_map, List.length_range]
  have h2 : 2 ≤ c.length := by omega
  refine ⟨_, _, smoothData_eq c h2, ?_⟩
  have hdlen : (diffL c).length = N - 1 := by rw [diffL_length, hclen]
  have hall : ∀ k, k < (diffL c).length → (diffL c).getD k 0 = d := by
    intro k hk
    rw [hdlen] at hk
    rw [diffL_getD c k (by omega)]
    rw [hc, getD_range_map N _ (k + 1) (by omega), getD_range_map N _ k (by omega)]
    push_cast
    ring
  have hdpos : 0 < (diffL c).length := by omega
  have hmap : (smoothGrid c).map (interpAt (diffL c)) =
      (smoothGrid c).map fun _ => d :=
    List.map_congr_left fun t _ => interpAt_const (diffL c) d hdpos hall t
  have hglen : (smoothGrid c).length = N * 4 := by
    rw [smoothGrid_length, hclen]
  have hc0 : c.headD 0 = c0 := by
    have hlen0 : 0 < ((List.range N).map fun (i : ℕ) => c0 + d * (i : ℚ)).length := by
      rw [List.length_map, List.length_range]
      omega
    rw [hc, List.headD_eq_head?_getD, List.head?_eq_getElem?,
      List.getElem?_eq_getElem hlen0]
    have := getD_range_map N (fun i => c0 + d * (i : ℚ)) 0 (by omega)
    rw [List.getD_eq_getElem?_getD, List.getElem?_eq_getElem hlen0] at this
    simp only [Option.getD_some] at this ⊢
    rw [this]
    norm_num
  cases hg : smoothGrid c with
  | nil =>
    rw [hg] at hglen
    simp at hglen
    omega
  | cons g0 gtail =>
    have hg0 : g0 = 0 := by
      have hh : (smoothGrid c).getD 0 0 = 0 := by
        rw [smoothGrid, linspace, if_neg (by omega : ¬ c.length * 4 ≤ 1)]
        rw [getD_range_map _ _ 0 (by rw [hclen]; omega)]
        norm_num
      rw [hg] at hh
      simpa using hh
    intro i hi
    subst hg0
    rw [hg] at hmap
    rw [hmap, hc0, cumtrapz_const d 0 gtail, List.map_map] at hi ⊢
    rw [List.length_map] at hi
    rw [List.tail_cons]
    rw [getD_map gtail _ i hi, getD_map gtail _ i hi]
    simp only [Function.comp]
    ring

theorem c8_witness :
    (2 ≤ 2 ∧
      ([0, 1] : List ℚ) = (List.range 2).map fun (i : ℕ) => 0 + 1 * (i : ℚ)) ∧
    (∃ xS yS, smoothData [0, 1] = some (xS, yS) ∧
      ∀ i < yS.length, yS.getD i 0 = 0 + 1 * (xS.getD i 0 - 1 / 2)) :=
  ⟨⟨by omega, by decide⟩,
    c8_linear_roundtrip_amended 0 1 2 (by omega) [0, 1] (by decide)⟩
